import Mathlib

/-!
# Verification of the `MarkdownParser` core (src/markdown_parser.py)

Shallow embedding of the line-oriented Markdown → HTML converter.
Text is modelled as `List Char` (the `.data` of a Lean `String`), so
that every Python string operation becomes an explicit, executable
list function.  Machine-width issues do not arise (Python integers are
unbounded, and only small naturals occur).

Modelling conventions, mirroring the Python source:
* `str.strip()`  → `pyStrip` (whitespace is modelled as the ASCII
  whitespace recognised by `Char.isWhitespace`; the documents and
  claims only involve those characters);
* Python regex character classes `\w` / `\d` are modelled over ASCII
  alphanumerics (plus the explicit CJK range `一`-`鿿` that
  the slug regex names), `str.lower()` over ASCII — these are the
  alphabets exercised by the source and the specification;
* the block-splitter `while` loop and the recursive blockquote parse
  are modelled with an explicit fuel parameter (`parseLines fuel`):
  `none` means the computation did not finish within `fuel` loop
  steps.  Termination for every fuel bound failing is how genuine
  non-termination of the Python loop is expressed.
-/

namespace Blog

/-- Text, as the character list underlying a Python `str`. -/
abbrev Str := List Char

/-- Whitespace test used by `str.strip()` / regex `\s` (ASCII model). -/
def ws (c : Char) : Bool := c.isWhitespace

/-- Python `s.strip()`: drop whitespace from both ends. -/
def pyStrip (s : Str) : Str := (s.dropWhile ws).rdropWhile ws

/-- Python `s.startswith(p)`. -/
def pyStarts (s p : Str) : Bool := p.isPrefixOf s

/-- Python `s.lower()` (ASCII model; identity beyond ASCII letters). -/
def pyLower (s : Str) : Str := s.map Char.toLower

/-- One fuelled pass of Python `s.replace(pat, repl)` (non-overlapping,
left to right).  The fuel only bounds the recursion; `pyReplaceAll`
supplies enough for any non-empty pattern. -/
def pyReplace (pat repl : Str) : Nat → Str → Str
  | 0, s => s
  | _ + 1, [] => []
  | f + 1, c :: cs =>
    if pat ≠ [] ∧ pat.isPrefixOf (c :: cs) then
      repl ++ pyReplace pat repl f ((c :: cs).drop pat.length)
    else
      c :: pyReplace pat repl f cs

/-- Python `s.replace(pat, repl)`. -/
def pyReplaceAll (pat repl s : Str) : Str := pyReplace pat repl (s.length + 1) s

/-- Python `s.split('\n')`. -/
def splitNl : Str → List Str
  | [] => [[]]
  | c :: cs =>
    let r := splitNl cs
    if c = '\n' then [] :: r
    else
      match r with
      | h :: t => (c :: h) :: t
      | [] => [[c]]

/-- Decimal digits of a natural number, most significant first
(fuelled structural recursion so that the kernel can evaluate it).
This is the string Python's `f'{c}'` produces for a natural `c`. -/
def natStrAux : Nat → Nat → Str
  | 0, _ => []
  | f + 1, n =>
    if n < 10 then [Nat.digitChar n]
    else natStrAux f (n / 10) ++ [Nat.digitChar (n % 10)]

/-- Python `f'{n}'` for a natural number `n`. -/
def natStr (n : Nat) : Str := natStrAux (n + 1) n

/-! ## Line classification predicates (the dispatcher's checks, in source order) -/

/-- `line.strip() == ''`. -/
def isBlank (l : Str) : Bool := pyStrip l = []

/-- `line.strip().startswith('```')`. -/
def isFence (l : Str) : Bool := pyStarts (pyStrip l) "```".data

/-- `re.match(r'^(#{1,6})\s+(.+)$', line)`: up to six leading `#`, at
least one whitespace, then a non-empty remainder; yields the level and
`group(2).strip()` (the raw heading text). -/
def headMatch (l : Str) : Option (Nat × Str) :=
  let k := (l.takeWhile (· = '#')).length
  if 1 ≤ k ∧ k ≤ 6 then
    match l.drop k with
    | c :: _ :: _ => if ws c then some (k, pyStrip (l.drop k)) else none
    | _ => none
  else none

/-- `re.match(r'^(\s*[-*_]\s*){3,}$', line)`: only whitespace and the
three rule markers, with at least three markers. -/
def isHr (l : Str) : Bool :=
  l.all (fun c => ws c || c = '-' || c = '*' || c = '_') &&
    3 ≤ l.countP (fun c => c = '-' || c = '*' || c = '_')

/-- `line.strip().startswith('>')`. -/
def quotePred (l : Str) : Bool := pyStarts (pyStrip l) ['>']

/-- `re.match(r'^(\s*)([-*+])\s+', line)`. -/
def ulMatch (l : Str) : Bool :=
  match l.dropWhile ws with
  | m :: c :: _ => (m = '-' || m = '*' || m = '+') && ws c
  | _ => false

/-- `re.sub(r'^(\s*)([-*+])\s+', '', line)`: leading whitespace, the
bullet and the (greedy) run of whitespace after it are removed. -/
def ulStrip (l : Str) : Str :=
  if ulMatch l then ((l.dropWhile ws).drop 1).dropWhile ws else l

/-- `re.match(r'^(\s*)\d+\.\s+', line)`. -/
def olMatch (l : Str) : Bool :=
  let r := l.dropWhile ws
  let rest := r.dropWhile (·.isDigit)
  (r.takeWhile (·.isDigit)) ≠ [] &&
    match rest with
    | '.' :: c :: _ => ws c
    | _ => false

/-- `re.sub(r'^(\s*)\d+\.\s+', '', line)`. -/
def olStrip (l : Str) : Str :=
  if olMatch l then (((l.dropWhile ws).dropWhile (·.isDigit)).drop 1).dropWhile ws else l

/-- `re.match(r'^[\s|:-]+$', line)`: a non-empty line of whitespace,
pipes, colons and dashes (the table delimiter row). -/
def isDelimRow (l : Str) : Bool :=
  l ≠ [] && l.all (fun c => ws c || c = '|' || c = ':' || c = '-')

/-- The paragraph handler's break test:
`lines[i].strip().startswith(('#','>','```'))` or a list-item or
horizontal-rule match. -/
def paraBreak (l : Str) : Bool :=
  pyStarts (pyStrip l) ['#'] || pyStarts (pyStrip l) ['>'] ||
    pyStarts (pyStrip l) "```".data || ulMatch l || olMatch l || isHr l

/-! ## The inline rule engine (`INLINE_RULES` / `parse_inline`)

Each regex of `INLINE_RULES` is embedded as a matcher
`Option Char → Str → Option (Str × Char × Str)`: given the character
preceding the current position (for the lookbehind of rule 9) and the
remaining text, it returns the replacement text, the last character of
the matched span, and the remainder after the match.  `subMat` is
Python's `pattern.sub`: scan left to right, replace non-overlapping
matches, advance one character on failure. -/

/-- Regex `[a-zA-Z0-9]` (the look-around class of the `_…_` rule). -/
def asciiAlnum (c : Char) : Bool := c.isAlpha || c.isDigit

/-- A matcher: previous character, text → replacement, last matched
character, remainder. -/
abbrev Matcher := Option Char → Str → Option (Str × Char × Str)

/-- One regex-substitution pass (`pattern.sub(repl, text)`), fuelled;
`applyRule` supplies fuel `length + 1`, enough because every matcher
consumes at least one character. -/
def subMat (m : Matcher) : Nat → Option Char → Str → Str
  | 0, _, s => s
  | f + 1, prev, s =>
    match m prev s with
    | some (repl, lastc, rem) => repl ++ subMat m f (some lastc) rem
    | none =>
      match s with
      | [] => []
      | c :: cs => c :: subMat m f (some c) cs

/-- Apply one inline rule over a whole text. -/
def applyRule (m : Matcher) (s : Str) : Str := subMat m (s.length + 1) none s

/-- `!\[([^\]]*)\]\(([^)]+)\)` → `<img src="\2" alt="\1">`. -/
def matchImg : Matcher := fun _ s =>
  match s with
  | '!' :: '[' :: r =>
    let alt := r.takeWhile (· ≠ ']')
    match r.dropWhile (· ≠ ']') with
    | ']' :: '(' :: r2 =>
      let url := r2.takeWhile (· ≠ ')')
      if url = [] then none
      else
        match r2.dropWhile (· ≠ ')') with
        | ')' :: r3 =>
          some ("<img src=\"".data ++ url ++ "\" alt=\"".data ++ alt ++ "\">".data, ')', r3)
        | _ => none
    | _ => none
  | _ => none

/-- `\[([^\]]+)\]\(([^)]+)\)` → `<a href="\2">\1</a>`. -/
def matchLink : Matcher := fun _ s =>
  match s with
  | '[' :: r =>
    let txt := r.takeWhile (· ≠ ']')
    if txt = [] then none
    else
      match r.dropWhile (· ≠ ']') with
      | ']' :: '(' :: r2 =>
        let url := r2.takeWhile (· ≠ ')')
        if url = [] then none
        else
          match r2.dropWhile (· ≠ ')') with
          | ')' :: r3 =>
            some ("<a href=\"".data ++ url ++ "\">".data ++ txt ++ "</a>".data, ')', r3)
          | _ => none
      | _ => none
  | _ => none

/-- `` `([^`]+)` `` → `<code>\1</code>`. -/
def matchCode : Matcher := fun _ s =>
  match s with
  | '`' :: r =>
    let body := r.takeWhile (· ≠ '`')
    if body = [] then none
    else
      match r.dropWhile (· ≠ '`') with
      | '`' :: r2 => some ("<code>".data ++ body ++ "</code>".data, '`', r2)
      | _ => none
  | _ => none

/-- The non-greedy body scan shared by the `d{k}(.+?)d{k}` rules:
shortest non-empty newline-free body followed by the closing
delimiter; returns the body and the remainder after the delimiter. -/
def findCloseDelim (d : Char) (k : Nat) : Str → Option (Str × Str)
  | [] => none
  | c :: cs =>
    if c = '\n' then none
    else if cs.take k = List.replicate k d then some ([c], cs.drop k)
    else
      match findCloseDelim d k cs with
      | some (b, rem) => some (c :: b, rem)
      | none => none

/-- `d{k}(.+?)d{k}` → `pre \1 post` (rules 4-8 and 10). -/
def matchDelim (d : Char) (k : Nat) (pre post : Str) : Matcher := fun _ s =>
  if s.take k = List.replicate k d then
    match findCloseDelim d k (s.drop k) with
    | some (b, rem) => some (pre ++ b ++ post, d, rem)
    | none => none
  else none

/-- Non-greedy body scan of rule 9: shortest non-empty newline-free
body followed by `_` whose successor (if any) is not `[a-zA-Z0-9]`. -/
def findCloseUnd : Str → Option (Str × Str)
  | [] => none
  | c :: cs =>
    if c = '\n' then none
    else
      match cs with
      | '_' :: rest =>
        if (match rest with | r :: _ => !asciiAlnum r | [] => true) then some ([c], rest)
        else
          match findCloseUnd cs with
          | some (b, rem) => some (c :: b, rem)
          | none => none
      | _ =>
        match findCloseUnd cs with
        | some (b, rem) => some (c :: b, rem)
        | none => none

/-- `(?<![a-zA-Z0-9])_(.+?)_(?![a-zA-Z0-9])` → `<em>\1</em>`. -/
def matchUnd1 : Matcher := fun prev s =>
  if (match prev with | some p => asciiAlnum p | none => false) then none
  else
    match s with
    | '_' :: r =>
      match findCloseUnd r with
      | some (b, rem) => some ("<em>".data ++ b ++ "</em>".data, '_', rem)
      | none => none
    | _ => none

/-- The ten rules of `INLINE_RULES`, in source order. -/
def inlineRules : List Matcher :=
  [ matchImg
  , matchLink
  , matchCode
  , matchDelim '*' 3 "<strong><em>".data "</em></strong>".data
  , matchDelim '_' 3 "<strong><em>".data "</em></strong>".data
  , matchDelim '*' 2 "<strong>".data "</strong>".data
  , matchDelim '_' 2 "<strong>".data "</strong>".data
  , matchDelim '*' 1 "<em>".data "</em>".data
  , matchUnd1
  , matchDelim '~' 2 "<del>".data "</del>".data ]

/-- `parse_inline`: fold the rules, in order, over the evolving text. -/
def parse_inline (t : Str) : Str :=
  inlineRules.foldl (fun s m => applyRule m s) t

/-! ## Block handlers -/

/-- `_esc`: `&`, `<`, `>`, `"` escaped by four chained `str.replace`
calls, in the source's order (`&` first). -/
def esc (t : Str) : Str :=
  pyReplaceAll ['"'] "&quot;".data
    (pyReplaceAll ['>'] "&gt;".data
      (pyReplaceAll ['<'] "&lt;".data
        (pyReplaceAll ['&'] "&amp;".data t)))

/-- The language tag of a fence line: `lines[s].strip()[3:].strip()`. -/
def langOf (l : Str) : Str := pyStrip ((pyStrip l).drop 3)

/-- The collect-until-closing-fence loop of `_code_block`: escaped
body lines, and the lines remaining after the (consumed) closing
fence. -/
def codeLines : List Str → List Str × List Str
  | [] => ([], [])
  | l :: ls =>
    if pyStrip l = "```".data then ([], ls)
    else
      let (o, rem) := codeLines ls
      (esc l :: o, rem)

/-- `_code_block` (first line, following lines) → html, remaining lines. -/
def code_block (first : Str) (rest : List Str) : Str × List Str :=
  let lang := langOf first
  let attr := if lang = [] then [] else " class=\"language-".data ++ lang ++ "\"".data
  let (out, rem) := codeLines rest
  ("<pre><code".data ++ attr ++ ">".data ++ List.intercalate ['\n'] out ++ "</code></pre>".data,
    rem)

/-- `re.sub(r'^>\s?', '', line)`: one leading `>` (at position 0 of the
line) and at most one whitespace character after it are removed. -/
def dequoteLine (l : Str) : Str :=
  if pyStarts l ['>'] then
    match l.drop 1 with
    | c :: cs => if ws c then cs else c :: cs
    | [] => []
  else l

/-- The dequoted content lines of a blockquote run. -/
def blockquoteLines (lines : List Str) : List Str :=
  (lines.takeWhile quotePred).map dequoteLine

/-- `_ul`: consume bullet lines, one flat `<li>` per line. -/
def ulBlock (lines : List Str) : Str × List Str :=
  let items := (lines.takeWhile ulMatch).map (fun l => parse_inline (ulStrip l))
  let li := List.intercalate ['\n'] (items.map (fun x => "  <li>".data ++ x ++ "</li>".data))
  ("<ul>\n".data ++ li ++ "\n</ul>".data, lines.dropWhile ulMatch)

/-- `_ol`: consume numbered lines, one flat `<li>` per line. -/
def olBlock (lines : List Str) : Str × List Str :=
  let items := (lines.takeWhile olMatch).map (fun l => parse_inline (olStrip l))
  let li := List.intercalate ['\n'] (items.map (fun x => "  <li>".data ++ x ++ "</li>".data))
  ("<ol>\n".data ++ li ++ "\n</ol>".data, lines.dropWhile olMatch)

/-- `sr` in `_table`: strip the line, strip surrounding pipes, split
on `|`, strip each cell. -/
def srCells (l : Str) : List Str :=
  ((((pyStrip l).dropWhile (· = '|')).rdropWhile (· = '|')).splitOn '|').map pyStrip

/-- `al` in `_table`: colons on both sides → center, trailing colon →
right, otherwise left. -/
def alignCell (c : Str) : Str :=
  let t := pyStrip c
  if pyStarts t [':'] && t.getLast? = some ':' then "center".data
  else if t.getLast? = some ':' then "right".data
  else "left".data

/-- Per-column alignments of the delimiter row. -/
def alignsOf (l : Str) : List Str := (srCells l).map alignCell

/-- `aligns[j] if j < len(aligns) else "left"`. -/
def pickAlign (aligns : List Str) (j : Nat) : Str := aligns.getD j "left".data

/-- The list of `<th>` strings of the header row. -/
def thCells (aligns : List Str) (hdr : List Str) : List Str :=
  hdr.enum.map (fun jh =>
    "      <th style=\"text-align:".data ++ pickAlign aligns jh.1 ++ "\">".data ++
      parse_inline jh.2 ++ "</th>".data)

/-- The list of `<td>` strings of one body row. -/
def tdCells (aligns : List Str) (cells : List Str) : List Str :=
  cells.enum.map (fun jc =>
    "      <td style=\"text-align:".data ++ pickAlign aligns jc.1 ++ "\">".data ++
      parse_inline jc.2 ++ "</td>".data)

/-- A body line belongs to the table while it contains `|` and is not
blank (`'|' in lines[i] and lines[i].strip()`). -/
def tableRowPred (l : Str) : Bool := l.contains '|' && pyStrip l ≠ []

/-- One `<tr>` body row. -/
def trRow (aligns : List Str) (l : Str) : Str :=
  "    <tr>\n".data ++ List.intercalate ['\n'] (tdCells aligns (srCells l)) ++
    "\n    </tr>".data

/-- `_table` (header line, delimiter line, following lines). -/
def tableBlock (hline dline : Str) (rest : List Str) : Str × List Str :=
  let hdr := srCells hline
  let aligns := alignsOf dline
  let ths := List.intercalate ['\n'] (thCells aligns hdr)
  let rows := (rest.takeWhile tableRowPred).map (trRow aligns)
  ("<table>\n  <thead>\n    <tr>\n".data ++ ths ++ "\n    </tr>\n  </thead>\n  <tbody>\n".data ++
      List.intercalate ['\n'] rows ++ "\n  </tbody>\n</table>".data,
    rest.dropWhile tableRowPred)

/-- Continuation test of the `_paragraph` loop: non-blank and not a
break line. -/
def paraCont (l : Str) : Bool := !isBlank l && !paraBreak l

/-- `_paragraph`: join the consumed lines with a space, inline-render,
wrap in `<p>`.  NOTE: when the first line itself satisfies the break
test, the loop body exits at once and the cursor is returned
unchanged — the returned remainder equals the input. -/
def paragraphBlock (lines : List Str) : Str × List Str :=
  let pl := lines.takeWhile paraCont
  ("<p>".data ++ parse_inline (List.intercalate [' '] pl) ++ "</p>".data,
    lines.dropWhile paraCont)

/-! ## Heading records, slugs, and the dispatcher loop -/

/-- A recorded heading `(level, slug, raw text)`. -/
abbrev Heading := Nat × Str × Str

/-- The slug of a heading record. -/
def slugOf (h : Heading) : Str := h.2.1

/-- The slugs recorded so far (`ids = {h[1] for h in self.headings}`). -/
def slugsOf (hs : List Heading) : List Str := hs.map slugOf

/-- Characters kept by `re.sub(r'[^\w一-鿿-]', '', raw)`
(ASCII `\w` plus the CJK ideograph range plus the hyphen). -/
def slugChar (c : Char) : Bool :=
  c.isAlphanum || c = '_' || c = '-' || ('一' ≤ c && c ≤ '鿿')

/-- The candidate `f'{base}-{c}'` of the dedup loop. -/
def slugCand (base : Str) (c : Nat) : Str := base ++ '-' :: natStr c

/-- The `while slug in ids` dedup loop, fuelled; `uniqueSlug` passes
fuel `ids.length + 1`, which always reaches a fresh candidate. -/
def dedupSlug (ids : List Str) (base : Str) : Nat → Nat → Str
  | 0, c => slugCand base c
  | f + 1, c =>
    if slugCand base c ∈ ids then dedupSlug ids base f (c + 1) else slugCand base c

/-- Slug deduplication against the already-recorded slugs. -/
def uniqueSlug (ids : List Str) (slug : Str) : Str :=
  if slug ∈ ids then dedupSlug ids slug (ids.length + 1) 1 else slug

/-- The whole slug computation of the heading branch of `parse`. -/
def headingSlug (hs : List Heading) (raw : Str) : Str :=
  let s0 := pyLower (raw.filter slugChar)
  let s1 := if s0 = [] then "h-".data ++ natStr hs.length else s0
  uniqueSlug (slugsOf hs) s1

/-- The `<h{lv} id="{slug}">{content}</h{lv}>` string. -/
def headingHtml (lv : Nat) (slug content : Str) : Str :=
  "<h".data ++ natStr lv ++ " id=\"".data ++ slug ++ "\">".data ++ content ++
    "</h".data ++ natStr lv ++ ">".data

/-- `markdown.replace('\r\n','\n').replace('\r','\n')`. -/
def normalizeNl (s : Str) : Str :=
  pyReplaceAll ['\r'] ['\n'] (pyReplaceAll ['\r', '\n'] ['\n'] s)

/-- Normalise and split into lines, as at the top of `parse`. -/
def toLines (s : Str) : List Str := splitNl (normalizeNl s)

/-- The dispatcher `while` loop of `parse`, fuelled: one fuel unit per
loop iteration (and per nested blockquote parse).  Returns the list of
html parts and the final heading list; `none` means the loop did not
finish within `fuel` steps. -/
def parseLines : Nat → List Str → List Heading → Option (List Str × List Heading)
  | 0, _, _ => none
  | _ + 1, [], hs => some ([], hs)
  | f + 1, l :: rest, hs =>
    if isBlank l then parseLines f rest hs
    else if isFence l then
      (parseLines f (code_block l rest).2 hs).map
        (fun r => ((code_block l rest).1 :: r.1, r.2))
    else
      match headMatch l with
      | some (lv, raw) =>
        (parseLines f rest (hs ++ [(lv, headingSlug hs raw, raw)])).map
          (fun r => (headingHtml lv (headingSlug hs raw) (parse_inline raw) :: r.1, r.2))
      | none =>
        if isHr l then
          (parseLines f rest hs).map (fun r => ("<hr>".data :: r.1, r.2))
        else if quotePred l then
          match parseLines f (toLines (List.intercalate ['\n'] (blockquoteLines (l :: rest)))) [] with
          | none => none
          | some inner =>
            (parseLines f ((l :: rest).dropWhile quotePred) hs).map
              (fun r => (("<blockquote>\n".data ++ List.intercalate ['\n'] inner.1 ++
                "\n</blockquote>".data) :: r.1, r.2))
        else if ulMatch l then
          (parseLines f (ulBlock (l :: rest)).2 hs).map
            (fun r => ((ulBlock (l :: rest)).1 :: r.1, r.2))
        else if olMatch l then
          (parseLines f (olBlock (l :: rest)).2 hs).map
            (fun r => ((olBlock (l :: rest)).1 :: r.1, r.2))
        else
          match rest with
          | next :: rest2 =>
            if l.contains '|' && isDelimRow next then
              (parseLines f (tableBlock l next rest2).2 hs).map
                (fun r => ((tableBlock l next rest2).1 :: r.1, r.2))
            else
              (parseLines f (paragraphBlock (l :: rest)).2 hs).map
                (fun r => ((paragraphBlock (l :: rest)).1 :: r.1, r.2))
          | [] =>
            (parseLines f (paragraphBlock [l]).2 hs).map
              (fun r => ((paragraphBlock [l]).1 :: r.1, r.2))

/-- `parse`: reset the heading list, run the dispatcher, join the html
parts with newlines. -/
def parse (fuel : Nat) (markdown : String) : Option (String × List Heading) :=
  (parseLines fuel (toLines markdown.data) []).map
    (fun r => (String.mk (List.intercalate ['\n'] r.1), r.2))

/-! ## Table of contents -/

/-- `'  ' * n`. -/
def strRepeat (s : Str) (n : Nat) : Str := (List.replicate n s).flatten

/-- One `<li>` of the table of contents.  The displayed text is the
recorded RAW heading text `h.2.2`, exactly as in the source. -/
def tocItem (h : Heading) : Str :=
  strRepeat "  ".data (h.1 - 1) ++ "<li class=\"toc-h".data ++ natStr h.1 ++
    "\"><a href=\"#".data ++ h.2.1 ++ "\">".data ++ h.2.2 ++ "</a></li>".data

/-- `generate_toc` over an explicit heading list. -/
def generate_toc (hs : List Heading) : Str :=
  if hs = [] then []
  else
    "<ul class=\"toc-list\">\n".data ++ List.intercalate ['\n'] (hs.map tocItem) ++
      "\n</ul>".data

/-- `generate_toc` as a method on the parser state: it reads the
heading list and does not modify it. -/
def generate_toc_method (hs : List Heading) : Str × List Heading :=
  (generate_toc hs, hs)

/-! ## Lemmas: the decimal printer is injective -/

/-- Decimal valuation, a left inverse of `natStr`. -/
def natVal (s : Str) : Nat := s.foldl (fun a c => 10 * a + (c.toNat - 48)) 0

theorem natVal_append_digit (xs : Str) (c : Char) :
    natVal (xs ++ [c]) = 10 * natVal xs + (c.toNat - 48) := by
  simp [natVal, List.foldl_append]

theorem digitChar_val (n : Nat) (h : n < 10) : (Nat.digitChar n).toNat - 48 = n := by
  interval_cases n <;> rfl

theorem natVal_natStrAux : ∀ f n, n < f → natVal (natStrAux f n) = n := by
  intro f
  induction f with
  | zero => intro n h; omega
  | succ f ih =>
    intro n h
    by_cases h10 : n < 10
    · simp only [natStrAux, if_pos h10, natVal, List.foldl_cons, List.foldl_nil]
      have := digitChar_val n h10
      omega
    · have hdiv : n / 10 < f := by
        have h1 : n / 10 < n := Nat.div_lt_self (by omega) (by omega)
        omega
      simp only [natStrAux, if_neg h10]
      rw [natVal_append_digit, ih (n / 10) hdiv, digitChar_val (n % 10) (Nat.mod_lt n (by omega))]
      omega

theorem natStr_injective : Function.Injective natStr := by
  intro a b h
  have ha := natVal_natStrAux (a + 1) a (Nat.lt_succ_self a)
  have hb := natVal_natStrAux (b + 1) b (Nat.lt_succ_self b)
  simp only [natStr] at h
  rw [h, hb] at ha
  exact ha.symm

/-! ## Lemmas: slug deduplication always yields a fresh slug -/

theorem slugCand_injective (base : Str) : Function.Injective (slugCand base) := by
  intro a b h
  simp only [slugCand, List.append_cancel_left_eq, List.cons.injEq, true_and] at h
  exact natStr_injective h

theorem dedupSlug_not_mem (ids : List Str) (base : Str) :
    ∀ f c, (List.range' c f).countP (fun j => decide (slugCand base j ∈ ids)) < f →
      dedupSlug ids base f c ∉ ids := by
  intro f
  induction f with
  | zero => intro c h; omega
  | succ f ih =>
    intro c h
    by_cases hc : slugCand base c ∈ ids
    · simp only [dedupSlug, if_pos hc]
      apply ih (c + 1)
      rw [List.range'_succ, List.countP_cons] at h
      rw [decide_eq_true hc] at h
      simp only [if_true] at h
      omega
    · simpa only [dedupSlug, if_neg hc] using hc

theorem uniqueSlug_not_mem (ids : List Str) (slug : Str) : uniqueSlug ids slug ∉ ids := by
  by_cases h : slug ∈ ids
  · simp only [uniqueSlug, if_pos h]
    apply dedupSlug_not_mem
    have hlen : ((List.range' 1 (ids.length + 1)).countP
        (fun j => decide (slugCand slug j ∈ ids))) ≤ ids.length := by
      rw [List.countP_eq_length_filter]
      have hnd0 : (List.range' 1 (ids.length + 1)).Nodup := List.nodup_range' ..
      have hnd : ((List.range' 1 (ids.length + 1)).filter
          (fun j => decide (slugCand slug j ∈ ids))).Nodup :=
        hnd0.filter _
      have hsub : ((List.range' 1 (ids.length + 1)).filter
          (fun j => decide (slugCand slug j ∈ ids))).map (slugCand slug) ⊆ ids := by
        intro x hx
        rcases List.mem_map.mp hx with ⟨j, hj, rfl⟩
        exact of_decide_eq_true (List.mem_filter.mp hj).2
      have hmapnd : (((List.range' 1 (ids.length + 1)).filter
          (fun j => decide (slugCand slug j ∈ ids))).map (slugCand slug)).Nodup :=
        hnd.map (slugCand_injective slug)
      have := (hmapnd.subperm hsub).length_le
      simpa using this
    omega
  · simpa only [uniqueSlug, if_neg h] using h

theorem slugsOf_append_single (hs : List Heading) (x : Heading) :
    slugsOf (hs ++ [x]) = slugsOf hs ++ [slugOf x] := by
  simp [slugsOf]

theorem headingSlug_not_mem (hs : List Heading) (raw : Str) :
    headingSlug hs raw ∉ slugsOf hs :=
  uniqueSlug_not_mem _ _

/-- Invariant of the dispatcher loop: the recorded slugs stay pairwise
distinct.  Only the heading branch extends the heading list, and it
records `headingSlug hs raw`, which is fresh by `uniqueSlug_not_mem`;
the nested blockquote parse starts from `[]` and its headings are
discarded. -/
theorem parseLines_nodup :
    ∀ f lines hs res, parseLines f lines hs = some res →
      (slugsOf hs).Nodup → (slugsOf res.2).Nodup := by
  intro f
  induction f with
  | zero =>
    intro lines hs res h _
    exact absurd h (by simp [parseLines])
  | succ f ih =>
    intro lines hs res h hnd
    cases lines with
    | nil =>
      simp only [parseLines, Option.some.injEq] at h
      rw [← h]
      exact hnd
    | cons l rest =>
      simp only [parseLines] at h
      split at h
      · exact ih _ _ _ h hnd
      · split at h
        · rcases Option.map_eq_some'.mp h with ⟨r, hr, rfl⟩
          exact ih _ _ r hr hnd
        · split at h
          · rename_i lv raw _
            rcases Option.map_eq_some'.mp h with ⟨r, hr, rfl⟩
            apply ih _ _ r hr
            rw [slugsOf_append_single]
            refine List.Nodup.append hnd (List.nodup_singleton _) ?_
            intro a ha hb
            rw [List.mem_singleton] at hb
            subst hb
            exact headingSlug_not_mem hs raw ha
          · split at h
            · rcases Option.map_eq_some'.mp h with ⟨r, hr, rfl⟩
              exact ih _ _ r hr hnd
            · split at h
              · split at h
                · exact absurd h (by simp)
                · rcases Option.map_eq_some'.mp h with ⟨r, hr, rfl⟩
                  exact ih _ _ r hr hnd
              · split at h
                · rcases Option.map_eq_some'.mp h with ⟨r, hr, rfl⟩
                  exact ih _ _ r hr hnd
                · split at h
                  · rcases Option.map_eq_some'.mp h with ⟨r, hr, rfl⟩
                    exact ih _ _ r hr hnd
                  · split at h
                    · split at h
                      · rcases Option.map_eq_some'.mp h with ⟨r, hr, rfl⟩
                        exact ih _ _ r hr hnd
                      · rcases Option.map_eq_some'.mp h with ⟨r, hr, rfl⟩
                        exact ih _ _ r hr hnd
                    · rcases Option.map_eq_some'.mp h with ⟨r, hr, rfl⟩
                      exact ih _ _ r hr hnd

/-! ## Lemma: the dispatcher makes no progress on `"#x"` -/

/-- On the single-line document `#x` (trimmed form starts with `#`,
but not a valid ATX heading), the dispatcher reaches the paragraph
handler, whose break test fires on the first line, so the handler
returns the line list unchanged and the loop never finishes, for any
fuel bound. -/
theorem parseLines_hash_stuck : ∀ f hs, parseLines f ["#x".data] hs = none := by
  intro f
  induction f with
  | zero => intro hs; rfl
  | succ f ih =>
    intro hs
    have step : parseLines (f + 1) ["#x".data] hs =
        (parseLines f ["#x".data] hs).map
          (fun r => ((paragraphBlock ["#x".data]).1 :: r.1, r.2)) := rfl
    rw [step, ih hs, Option.map_none']

/-! ## Lemmas: which dispatcher branch a quote line reaches -/

theorem pyStarts_single_iff (s : Str) (c : Char) :
    pyStarts s [c] = true ↔ ∃ t, s = c :: t := by
  cases s with
  | nil => simp [pyStarts, List.isPrefixOf]
  | cons a t =>
    simp only [pyStarts, List.isPrefixOf, Bool.and_true, beq_iff_eq, List.cons.injEq]
    constructor
    · intro h; exact ⟨t, h.symm, rfl⟩
    · rintro ⟨t', h1, h2⟩; exact h1.symm

theorem pyStrip_sublist (l : Str) : List.Sublist (pyStrip l) l :=
  ((List.rdropWhile_prefix ws (l.dropWhile ws)).sublist).trans (List.dropWhile_sublist ws)

/-- A line whose trimmed form starts with `>` fails the blank, fence,
heading and horizontal-rule checks that precede the blockquote check. -/
theorem quote_branch_facts (l : Str) (hq : quotePred l = true) :
    isBlank l = false ∧ isFence l = false ∧ headMatch l = none ∧ isHr l = false := by
  obtain ⟨t, ht⟩ := (pyStarts_single_iff _ _).mp hq
  have hmem : '>' ∈ l := (pyStrip_sublist l).subset (ht ▸ List.mem_cons_self '>' t)
  refine ⟨?_, ?_, ?_, ?_⟩
  · simp [isBlank, ht]
  · simp [isFence, pyStarts, ht, List.isPrefixOf]
  · cases l with
    | nil =>
      rw [show pyStrip ([] : Str) = [] from rfl] at ht
      exact List.noConfusion ht
    | cons a u =>
      by_cases ha : a = '#'
      · exfalso
        subst ha
        have hd : List.dropWhile ws ('#' :: u) = '#' :: u :=
          List.dropWhile_cons_of_neg (by decide)
        have hps : pyStrip ('#' :: u) = List.rdropWhile ws ('#' :: u) := by
          rw [pyStrip, hd]
        have hpref := List.rdropWhile_prefix ws ('#' :: u)
        rw [← hps, ht] at hpref
        rcases hpref with ⟨s, hs⟩
        simp at hs
      · have htw : (a :: u).takeWhile (fun c => decide (c = '#')) = [] :=
          List.takeWhile_cons_of_neg (by simp [ha])
        simp [headMatch, htw]
  · cases hhr : isHr l with
    | false => rfl
    | true =>
      exfalso
      rw [isHr, Bool.and_eq_true] at hhr
      exact absurd (List.all_eq_true.mp hhr.1 '>' hmem) (by decide)

/-- A document all of whose lines are blockquote lines is consumed in
one blockquote step, whose handler never touches the outer heading
list: the outer headings stay `[]`. -/
theorem parseLines_all_quote (f : Nat) (lines : List Str) (res : List Str × List Heading)
    (hall : ∀ l ∈ lines, quotePred l = true)
    (h : parseLines f lines [] = some res) : res.2 = [] := by
  cases f with
  | zero => exact absurd h (by simp [parseLines])
  | succ f =>
    cases lines with
    | nil =>
      simp only [parseLines, Option.some.injEq] at h
      rw [← h]
    | cons l rest =>
      have hq := hall l (List.mem_cons_self l rest)
      obtain ⟨hb, hf, hm, hr⟩ := quote_branch_facts l hq
      have hdrop : (l :: rest).dropWhile quotePred = [] :=
        List.dropWhile_eq_nil_iff.mpr (fun x hx => hall x hx)
      simp only [parseLines, hb, hf, hm, hr, hq, hdrop] at h
      simp only [Bool.false_eq_true, if_false, if_true] at h
      split at h
      · exact absurd h (by simp)
      · rcases Option.map_eq_some'.mp h with ⟨r, hre, rfl⟩
        cases f with
        | zero => exact absurd hre (by simp [parseLines])
        | succ f2 =>
          simp only [parseLines, Option.some.injEq] at hre
          rw [← hre]

/-! ## Lemmas: the code-fence handler, declaratively -/

theorem codeLines_eq : ∀ ls : List Str,
    codeLines ls =
      ((ls.takeWhile (fun l => !decide (pyStrip l = "```".data))).map esc,
       (ls.dropWhile (fun l => !decide (pyStrip l = "```".data))).drop 1) := by
  intro ls
  induction ls with
  | nil => rfl
  | cons l rest ih =>
    by_cases hc : pyStrip l = "```".data
    · simp [codeLines, hc, List.takeWhile_cons, List.dropWhile_cons]
    · simp [codeLines, hc, List.takeWhile_cons, List.dropWhile_cons, ih]

/-- What each character of a code line becomes under `_esc`. -/
def escChar (c : Char) : Str :=
  if c = '&' then "&amp;".data
  else if c = '<' then "&lt;".data
  else if c = '>' then "&gt;".data
  else if c = '"' then "&quot;".data
  else [c]

theorem pyReplace_single (a : Char) (r : Str) :
    ∀ f s, s.length < f →
      pyReplace [a] r f s = s.flatMap (fun c => if c = a then r else [c]) := by
  intro f
  induction f with
  | zero => intro s h; omega
  | succ f ih =>
    intro s h
    cases s with
    | nil => simp [pyReplace]
    | cons c cs =>
      have hlen : cs.length < f := by simpa using h
      by_cases hca : c = a
      · subst hca
        simp [pyReplace, List.isPrefixOf, ih cs hlen]
      · simp [pyReplace, List.isPrefixOf, Ne.symm hca, hca, ih cs hlen]

theorem pyReplaceAll_single (a : Char) (r : Str) (s : Str) :
    pyReplaceAll [a] r s = s.flatMap (fun c => if c = a then r else [c]) :=
  pyReplace_single a r (s.length + 1) s (Nat.lt_succ_self _)

theorem escChar_chain (c : Char) :
    ((((if c = '&' then "&amp;".data else [c]).flatMap
        (fun d => if d = '<' then "&lt;".data else [d])).flatMap
        (fun d => if d = '>' then "&gt;".data else [d])).flatMap
        (fun d => if d = '"' then "&quot;".data else [d])) = escChar c := by
  by_cases h1 : c = '&'
  · subst h1; rfl
  · by_cases h2 : c = '<'
    · subst h2; rfl
    · by_cases h3 : c = '>'
      · subst h3; rfl
      · by_cases h4 : c = '"'
        · subst h4; rfl
        · simp [h1, h2, h3, h4, escChar]

/-- `_esc` escapes exactly `&`, `<`, `>`, `"`, characterwise. -/
theorem esc_eq (t : Str) : esc t = t.flatMap escChar := by
  unfold esc
  rw [pyReplaceAll_single, pyReplaceAll_single, pyReplaceAll_single, pyReplaceAll_single]
  induction t with
  | nil => rfl
  | cons c cs ih =>
    rw [List.flatMap_cons, List.flatMap_append, List.flatMap_append, List.flatMap_append,
      List.flatMap_cons, ih, escChar_chain]

/-- The lines remaining after a code block are a tail of the input. -/
theorem code_block_snd (first : Str) (rest : List Str) :
    (code_block first rest).2 =
      (rest.dropWhile (fun l => !decide (pyStrip l = "```".data))).drop 1 := by
  simp [code_block, codeLines_eq]

/-- A cons list headed by a non-whitespace character strips to `[]` or
to a list with the same head. -/
theorem pyStrip_head (a : Char) (u : Str) (ha : ws a = false) :
    pyStrip (a :: u) = [] ∨ ∃ t, pyStrip (a :: u) = a :: t := by
  have hd : List.dropWhile ws (a :: u) = a :: u :=
    List.dropWhile_cons_of_neg (by simp [ha])
  have heq : pyStrip (a :: u) = List.rdropWhile ws (a :: u) := by rw [pyStrip, hd]
  have hpref := List.rdropWhile_prefix ws (a :: u)
  rw [← heq] at hpref
  rcases hpref with ⟨s, hs⟩
  cases hps : pyStrip (a :: u) with
  | nil => exact Or.inl rfl
  | cons b t =>
    right
    rw [hps, List.cons_append, List.cons.injEq] at hs
    exact ⟨t, by rw [hs.1]⟩

/-- A line matched by the ATX heading regex begins with `#`. -/
theorem headMatch_head (l : Str) (p : Nat × Str) (h : headMatch l = some p) :
    ∃ u, l = '#' :: u := by
  unfold headMatch at h
  by_cases hk : 1 ≤ (l.takeWhile (fun c => decide (c = '#'))).length ∧
      (l.takeWhile (fun c => decide (c = '#'))).length ≤ 6
  · cases l with
    | nil => simp at hk
    | cons a u =>
      by_cases ha : a = '#'
      · exact ⟨u, by rw [ha]⟩
      · exfalso
        rw [List.takeWhile_cons_of_neg (by simp [ha])] at hk
        simp at hk
  · rw [if_neg hk] at h
    exact absurd h (by simp)

/-- A heading line is not a blockquote line. -/
theorem quotePred_false_of_headMatch (l : Str) (p : Nat × Str)
    (h : headMatch l = some p) : quotePred l = false := by
  obtain ⟨u, rfl⟩ := headMatch_head l p h
  rcases pyStrip_head '#' u (by decide) with h0 | ⟨t, ht⟩
  · simp [quotePred, pyStarts, h0, List.isPrefixOf]
  · simp [quotePred, pyStarts, ht, List.isPrefixOf]

/-- Provenance of recorded headings: every heading the dispatcher
records on top of `hs` comes from a line of the input line list that
is not a blockquote line and that matches the ATX heading pattern with
that level and raw text.  In particular a heading line occurring only
inside blockquote runs (the nested parse starts fresh and its heading
list is discarded) is never recorded. -/
theorem parseLines_heading_provenance :
    ∀ f lines hs res, parseLines f lines hs = some res →
      ∀ x ∈ res.2, x ∈ hs ∨
        ∃ l ∈ lines, quotePred l = false ∧ headMatch l = some (x.1, x.2.2) := by
  intro f
  induction f with
  | zero =>
    intro lines hs res h
    exact absurd h (by simp [parseLines])
  | succ f ih =>
    intro lines hs res h x hx
    cases lines with
    | nil =>
      simp only [parseLines, Option.some.injEq] at h
      rw [← h] at hx
      exact Or.inl hx
    | cons l rest =>
      simp only [parseLines] at h
      split at h
      · rcases ih rest hs res h x hx with hin | ⟨l', hl', hq', hm'⟩
        · exact Or.inl hin
        · exact Or.inr ⟨l', List.mem_cons_of_mem l hl', hq', hm'⟩
      · split at h
        · rcases Option.map_eq_some'.mp h with ⟨r, hr, rfl⟩
          rcases ih _ hs r hr x hx with hin | ⟨l', hl', hq', hm'⟩
          · exact Or.inl hin
          · rw [code_block_snd] at hl'
            refine Or.inr ⟨l', List.mem_cons_of_mem l ?_, hq', hm'⟩
            exact ((List.dropWhile_sublist _).subset (List.drop_subset 1 _ hl'))
        · split at h
          · rename_i lv raw hm
            rcases Option.map_eq_some'.mp h with ⟨r, hr, rfl⟩
            rcases ih rest _ r hr x hx with hin | ⟨l', hl', hq', hm'⟩
            · rcases List.mem_append.mp hin with hin2 | hnew
              · exact Or.inl hin2
              · rw [List.mem_singleton] at hnew
                subst hnew
                exact Or.inr ⟨l, List.mem_cons_self l rest,
                  quotePred_false_of_headMatch l _ hm, hm⟩
            · exact Or.inr ⟨l', List.mem_cons_of_mem l hl', hq', hm'⟩
          · split at h
            · rcases Option.map_eq_some'.mp h with ⟨r, hr, rfl⟩
              rcases ih rest hs r hr x hx with hin | ⟨l', hl', hq', hm'⟩
              · exact Or.inl hin
              · exact Or.inr ⟨l', List.mem_cons_of_mem l hl', hq', hm'⟩
            · split at h
              · split at h
                · exact absurd h (by simp)
                · rcases Option.map_eq_some'.mp h with ⟨r, hr, rfl⟩
                  rcases ih _ hs r hr x hx with hin | ⟨l', hl', hq', hm'⟩
                  · exact Or.inl hin
                  · exact Or.inr ⟨l', (List.dropWhile_sublist _).subset hl', hq', hm'⟩
              · split at h
                · rcases Option.map_eq_some'.mp h with ⟨r, hr, rfl⟩
                  rcases ih _ hs r hr x hx with hin | ⟨l', hl', hq', hm'⟩
                  · exact Or.inl hin
                  · exact Or.inr ⟨l', (List.dropWhile_sublist _).subset hl', hq', hm'⟩
                · split at h
                  · rcases Option.map_eq_some'.mp h with ⟨r, hr, rfl⟩
                    rcases ih _ hs r hr x hx with hin | ⟨l', hl', hq', hm'⟩
                    · exact Or.inl hin
                    · exact Or.inr ⟨l', (List.dropWhile_sublist _).subset hl', hq', hm'⟩
                  · split at h
                    · split at h
                      · rcases Option.map_eq_some'.mp h with ⟨r, hr, rfl⟩
                        rcases ih _ hs r hr x hx with hin | ⟨l', hl', hq', hm'⟩
                        · exact Or.inl hin
                        · refine Or.inr ⟨l', List.mem_cons_of_mem l
                            (List.mem_cons_of_mem _ ((List.dropWhile_sublist _).subset hl')),
                            hq', hm'⟩
                      · rcases Option.map_eq_some'.mp h with ⟨r, hr, rfl⟩
                        rcases ih _ hs r hr x hx with hin | ⟨l', hl', hq', hm'⟩
                        · exact Or.inl hin
                        · exact Or.inr ⟨l', (List.dropWhile_sublist _).subset hl', hq', hm'⟩
                    · rcases Option.map_eq_some'.mp h with ⟨r, hr, rfl⟩
                      rcases ih _ hs r hr x hx with hin | ⟨l', hl', hq', hm'⟩
                      · exact Or.inl hin
                      · exact Or.inr ⟨l', (List.dropWhile_sublist _).subset hl', hq', hm'⟩

/-- Blank lines are skipped without emitting anything or touching the
heading list. -/
theorem parseLines_all_blank : ∀ f lines hs res,
    (∀ l ∈ lines, isBlank l = true) →
    parseLines f lines hs = some res → res = ([], hs) := by
  intro f
  induction f with
  | zero => intro lines hs res _ h; exact absurd h (by simp [parseLines])
  | succ f ih =>
    intro lines hs res hall h
    cases lines with
    | nil =>
      simp only [parseLines, Option.some.injEq] at h
      exact h.symm
    | cons l rest =>
      have hb := hall l (List.mem_cons_self l rest)
      simp only [parseLines, hb, if_true] at h
      exact ih rest hs res (fun x hx => hall x (List.mem_cons_of_mem l hx)) h

/-! # The claims -/

set_option maxRecDepth 8000

set_option maxHeartbeats 2000000

/-- C1: the claim says `parse` terminates and returns some HTML for
every input.  The code does not: on the one-line document `#x` (whose
trimmed form starts with `#` without being a valid ATX heading) every
dispatcher check fails down to the paragraph handler, whose break test
fires on that same first line, so the cursor is returned unchanged and
the `while` loop runs forever.  Formally: for every fuel bound the
loop fails to finish. -/
theorem C1_parse_nonterminating_on_bad_hash : ∀ fuel, parse fuel "#x" = none := by
  intro fuel
  have h := parseLines_hash_stuck fuel []
  simp only [parse]
  rw [show toLines "#x".data = ["#x".data] from rfl, h, Option.map_none']

/-- C2 counterexample: the claim says the TOC link text is the
heading's inline-transformed display text, not the raw text.  For the
document `# **A**` the emitted link text is the raw `**A**`, not the
rendered `<strong>A</strong>`: `generate_toc` prints the recorded raw
text. -/
theorem C2_toc_text_raw_counterexample :
    (parse 4 "# **A**").map (fun r => generate_toc r.2) =
      some ("<ul class=\"toc-list\">\n<li class=\"toc-h1\"><a href=\"#a\">".data ++
        "**A**".data ++ "</a></li>\n</ul>".data)
  ∧ (parse 4 "# **A**").map (fun r => generate_toc r.2) ≠
      some ("<ul class=\"toc-list\">\n<li class=\"toc-h1\"><a href=\"#a\">".data ++
        parse_inline "**A**".data ++ "</a></li>\n</ul>".data) := by
  exact ⟨by decide, by decide⟩

/-- C2 (amended): `generate_toc` returns, for each recorded heading in
document order, one `li` with class `toc-h{level}`, indented by
`level - 1` two-space steps, whose anchor links to `#{slug}` and whose
link text is the heading's RAW text; and the empty string when the
heading list is empty. -/
theorem C2_generate_toc_shape :
    generate_toc [] = []
  ∧ (∀ h hs', generate_toc (h :: hs') =
      "<ul class=\"toc-list\">\n".data ++
        List.intercalate ['\n'] ((h :: hs').map tocItem) ++ "\n</ul>".data)
  ∧ (∀ lv slug text, tocItem (lv, slug, text) =
      strRepeat "  ".data (lv - 1) ++ "<li class=\"toc-h".data ++ natStr lv ++
        "\"><a href=\"#".data ++ slug ++ "\">".data ++ text ++ "</a></li>".data)
  ∧ (parse 6 "# A\n## B\n# C").map (fun r => generate_toc r.2) =
      some "<ul class=\"toc-list\">\n<li class=\"toc-h1\"><a href=\"#a\">A</a></li>\n  <li class=\"toc-h2\"><a href=\"#b\">B</a></li>\n<li class=\"toc-h1\"><a href=\"#c\">C</a></li>\n</ul>".data := by
  refine ⟨rfl, fun h hs' => ?_, fun lv slug text => rfl, by decide⟩
  simp [generate_toc]

/-- C3: within one parse invocation the recorded slugs are pairwise
distinct (deduplication by `-1`, `-2`, … suffixes), and two headings
both titled `引言` get slugs `引言` and `引言-1`. -/
theorem C3_slugs_pairwise_unique :
    (∀ fuel doc res, parse fuel doc = some res → (slugsOf res.2).Nodup)
  ∧ (parse 4 "# 引言\n# 引言").map (fun r => slugsOf r.2) =
      some ["引言".data, "引言-1".data] := by
  constructor
  · intro fuel doc res h
    rcases Option.map_eq_some'.mp h with ⟨r, hr, rfl⟩
    exact parseLines_nodup fuel _ [] r hr (by simp [slugsOf])
  · decide

theorem C3_witness :
    (slugsOf [(1, "引言".data, "引言".data), (1, "引言-1".data, "引言".data)]).Nodup :=
  C3_slugs_pairwise_unique.1 4 "# 引言\n# 引言"
    ("<h1 id=\"引言\">引言</h1>\n<h1 id=\"引言-1\">引言</h1>",
      [(1, "引言".data, "引言".data), (1, "引言-1".data, "引言".data)])
    (by decide)

/-- C4: headings inside blockquotes never reach the outer heading
list.  (1) Every heading a parse records comes from a document line
that is not a blockquote line and itself matches the heading pattern
with that raw text — the blockquote handler hands its dedented content
to a fresh nested parse whose heading accumulation starts at `[]` and
is discarded; a heading occurring only inside blockquote runs is
therefore absent.  (2) In particular a document consisting solely of
blockquote lines yields an empty outer heading list.  (3) For the
mixed document `# A` / `> # Inner` / `> text`, only slug `a` is
recorded. -/
theorem C4_blockquote_heading_isolation :
    (∀ fuel doc res, parse fuel doc = some res →
      ∀ x ∈ res.2, ∃ l ∈ toLines doc.data,
        quotePred l = false ∧ headMatch l = some (x.1, x.2.2))
  ∧ (∀ fuel doc res, (∀ l ∈ toLines doc.data, quotePred l = true) →
      parse fuel doc = some res → res.2 = [])
  ∧ (parse 8 "# A\n> # Inner\n> text").map (fun r => slugsOf r.2) = some ["a".data] := by
  refine ⟨?_, ?_, by decide⟩
  · intro fuel doc res h x hx
    rcases Option.map_eq_some'.mp h with ⟨r, hr, rfl⟩
    rcases parseLines_heading_provenance fuel _ [] r hr x hx with hin | hprov
    · exact absurd hin (List.not_mem_nil x)
    · exact hprov
  · intro fuel doc res hall h
    rcases Option.map_eq_some'.mp h with ⟨r, hr, rfl⟩
    exact parseLines_all_quote fuel _ r hall hr

theorem C4_witness :
    (("<blockquote>\n<h1 id=\"t\">T</h1>\n</blockquote>", ([] : List Heading)) :
      String × List Heading).2 = [] :=
  C4_blockquote_heading_isolation.2.1 4 "> # T" _ (by decide) (by decide)

/-- C5: the inline transformer is the ordered composition of the ten
substitution rules over the progressively transformed string;
`***x***` renders as `<strong><em>x</em></strong>` and `a_b_c` is left
unchanged (underscores adjacent to alphanumerics). -/
theorem C5_inline_rules_order :
    parse_inline "***x***".data = "<strong><em>x</em></strong>".data
  ∧ parse_inline "a_b_c".data = "a_b_c".data
  ∧ ∀ t, parse_inline t =
      applyRule (matchDelim '~' 2 "<del>".data "</del>".data)
        (applyRule matchUnd1
          (applyRule (matchDelim '*' 1 "<em>".data "</em>".data)
            (applyRule (matchDelim '_' 2 "<strong>".data "</strong>".data)
              (applyRule (matchDelim '*' 2 "<strong>".data "</strong>".data)
                (applyRule (matchDelim '_' 3 "<strong><em>".data "</em></strong>".data)
                  (applyRule (matchDelim '*' 3 "<strong><em>".data "</em></strong>".data)
                    (applyRule matchCode
                      (applyRule matchLink
                        (applyRule matchImg t))))))))) := by
  refine ⟨by decide, by decide, fun t => ?_⟩
  simp only [parse_inline, inlineRules, List.foldl_cons, List.foldl_nil]

/-- C6: the fenced code block handler emits the lines up to the first
line whose trimmed form is exactly three backticks (which is consumed)
with exactly `&`, `<`, `>`, `"` escaped characterwise and no inline
transformation; without a closing fence it takes all remaining lines
(the `takeWhile`/`dropWhile` form covers both cases); the
`class="language-{tag}"` attribute appears exactly when the language
tag is non-empty. -/
theorem C6_code_block_spec :
    (∀ first rest,
      code_block first rest =
        ("<pre><code".data ++
          (if langOf first = [] then []
           else " class=\"language-".data ++ langOf first ++ "\"".data) ++
          ">".data ++
          List.intercalate ['\n']
            ((rest.takeWhile (fun l => !decide (pyStrip l = "```".data))).map esc) ++
          "</code></pre>".data,
         (rest.dropWhile (fun l => !decide (pyStrip l = "```".data))).drop 1))
  ∧ (∀ t, esc t = t.flatMap escChar) := by
  refine ⟨fun first rest => ?_, esc_eq⟩
  simp only [code_block, codeLines_eq]

/-- C7: delimiter cells wrapped in colons give center, trailing-colon
cells give right, all others left (checked on the specified example
table); positions beyond the alignment list default to left; a row
emits exactly one `td` per present cell. -/
theorem C7_table_alignment :
    alignsOf "|:--|:-:|--:|".data = ["left".data, "center".data, "right".data]
  ∧ (tableBlock "|A|B|C|".data "|:--|:-:|--:|".data []).1 =
      "<table>\n  <thead>\n    <tr>\n      <th style=\"text-align:left\">A</th>\n      <th style=\"text-align:center\">B</th>\n      <th style=\"text-align:right\">C</th>\n    </tr>\n  </thead>\n  <tbody>\n\n  </tbody>\n</table>".data
  ∧ (∀ aligns j, aligns.length ≤ j → pickAlign aligns j = "left".data)
  ∧ (∀ aligns cells, (tdCells aligns cells).length = cells.length) := by
  refine ⟨by decide, by decide, fun aligns j h => ?_, fun aligns cells => ?_⟩
  · simp only [pickAlign]
    exact List.getD_eq_default _ _ h
  · simp [tdCells]

theorem C7_witness :
    pickAlign ["center".data] 3 = "left".data :=
  C7_table_alignment.2.2.1 ["center".data] 3 (by decide)

/-- C8 counterexample: the claim says every line of a blockquote run
has one leading `>` (and at most one following space) stripped.  The
substitution is anchored at position 0, so the run line `  > x`
(leading indentation before the `>`) is passed through unchanged: no
`>` is removed. -/
theorem C8_indented_quote_counterexample :
    quotePred "  > x".data = true
  ∧ dequoteLine "  > x".data = "  > x".data
  ∧ ¬ (dequoteLine "  > x".data).count '>' < ("  > x".data).count '>' := by
  exact ⟨by decide, by decide, by decide⟩

/-- C8 (amended): the blockquote handler applies to each run line: if
the line begins with `>` at its first character, that `>` and at most
one immediately following whitespace character are removed; any other
run line (e.g. with indentation before the `>`) is unchanged. -/
theorem C8_dequote_characterization :
    (∀ c rest, dequoteLine ('>' :: c :: rest) = if ws c then rest else c :: rest)
  ∧ dequoteLine ['>'] = []
  ∧ (∀ l, pyStarts l ['>'] = false → dequoteLine l = l)
  ∧ (∀ lines, blockquoteLines lines = (lines.takeWhile quotePred).map dequoteLine) := by
  refine ⟨fun c rest => rfl, rfl, fun l h => ?_, fun lines => rfl⟩
  simp [dequoteLine, h]

theorem C8_witness : dequoteLine "#no".data = "#no".data :=
  C8_dequote_characterization.2.2.1 "#no".data (by decide)

/-- C9: a document whose lines are all blank (in particular the empty
string) parses to the empty HTML fragment with an empty heading list,
and the table of contents is then empty as well. -/
theorem C9_blank_document : ∀ fuel doc res,
    (∀ l ∈ toLines doc.data, isBlank l = true) →
    parse fuel doc = some res → res.1 = "" ∧ generate_toc res.2 = [] := by
  intro fuel doc res hall h
  rcases Option.map_eq_some'.mp h with ⟨r, hr, rfl⟩
  have hr2 := parseLines_all_blank fuel _ [] r hall hr
  subst hr2
  exact ⟨rfl, rfl⟩

theorem C9_witness :
    ((("", ([] : List Heading)) : String × List Heading).1 = "" ∧
      generate_toc (("", ([] : List Heading)) : String × List Heading).2 = []) ∧
    ((("", ([] : List Heading)) : String × List Heading).1 = "" ∧
      generate_toc (("", ([] : List Heading)) : String × List Heading).2 = []) :=
  ⟨C9_blank_document 2 "" ("", []) (by decide) (by decide),
   C9_blank_document 5 "\n \n" ("", []) (by decide) (by decide)⟩

/-- C10: `generate_toc` reads the heading list without modifying it,
so two successive calls return the same string. -/
theorem C10_generate_toc_pure : ∀ hs,
    (generate_toc_method hs).2 = hs ∧
    (generate_toc_method (generate_toc_method hs).2).1 = (generate_toc_method hs).1 :=
  fun _ => ⟨rfl, rfl⟩

end Blog
